import Mathlib

/-!
Shallow embedding of the compliance engine orchestrator
(`src/compliance/index.js` of the zeroshot repository).

The orchestrator is agnostic to the concrete policy modules, so a policy
module is embedded as its observable behaviour: a deterministic
`checkCompliance` function from content and context to either a
`ModuleResult` or a thrown value, plus a `getRequirements` outcome.
Thrown JavaScript values are modelled by `JsThrown`: the orchestrator's
catch handler reads `error.message`, which succeeds on every value except
`null`/`undefined` (`JsThrown.nullish`), where the property access itself
raises a `TypeError` (`JsError.typeError`).

Content, context, configuration objects and per-module requirement
descriptions are opaque to the orchestrator and are carried as `String`.
-/

/-- One flagged issue found by a policy module: `{ type, message, severity }`.
Severities are the strings `LOW`, `MEDIUM`, `HIGH`, `CRITICAL` in the source. -/
structure Violation where
  type : String
  message : String
  severity : String
  deriving Repr, DecidableEq

/-- The structured outcome of one module's evaluation, as consumed by the
orchestrator: `{ compliant, violations, recommendations }` (module-specific
extra fields are never read by the orchestrator). -/
structure ModuleResult where
  compliant : Bool
  violations : List Violation
  recommendations : List String
  deriving Repr, DecidableEq

/-- The `results.summary` object built by `checkCompliance`:
`{ totalViolations, criticalViolations, highViolations, recommendations }`. -/
structure Summary where
  totalViolations : Nat
  criticalViolations : Nat
  highViolations : Nat
  recommendations : List String
  deriving Repr, DecidableEq

/-- The `results` object returned by `checkCompliance`:
`{ overallCompliant, moduleResults, summary }`. `moduleResults` is a
JavaScript object, embedded as an association list in key insertion order. -/
structure Report where
  overallCompliant : Bool
  moduleResults : List (String × ModuleResult)
  summary : Summary
  deriving Repr, DecidableEq

/-- A JavaScript value thrown by a module, as far as the orchestrator's
handler observes it: `nullish` models `null`/`undefined` (property access
throws); `val msg` models any other value, `msg` being the string
interpolation of its `.message` property. -/
inductive JsThrown where
  | nullish
  | val (message : String)
  deriving Repr, DecidableEq

/-- An error raised by the orchestrator's own code: the `TypeError` from
reading `.message` of a nullish thrown value inside the catch handler. -/
inductive JsError where
  | typeError
  deriving Repr, DecidableEq

/-- The observable behaviour of one policy module instance. -/
structure ModuleImpl where
  checkCompliance : String → String → Except JsThrown ModuleResult
  getRequirements : Except JsThrown String

/-- A registered module instance together with its class (`constructor`),
used by `configureModule` to build a fresh instance of the same variant. -/
structure PolicyModule where
  variant : String → ModuleImpl
  impl : ModuleImpl

/-- The engine state: `complianceModules` (a JavaScript object keyed by
module name), `enabledModules`, and the unused `failOnAnyViolation` flag. -/
structure Engine where
  complianceModules : List (String × PolicyModule)
  enabledModules : List String
  failOnAnyViolation : Bool

/-- JavaScript property read `obj[k]` on an object embedded as an
association list (keys are unique by construction). -/
def lookupEntry {α : Type} (k : String) : List (String × α) → Option α
  | [] => none
  | (k1, v) :: rest => if k1 = k then some v else lookupEntry k rest

/-- JavaScript property write `obj[k] = v`: replaces the value in place if
the key exists, otherwise appends the new key at the end. -/
def objInsert {α : Type} (k : String) (v : α) : List (String × α) → List (String × α)
  | [] => [(k, v)]
  | (k1, v1) :: rest => if k1 = k then (k, v) :: rest else (k1, v1) :: objInsert k v rest

/-- `[...new Set(xs)]`: keeps the first occurrence of each string, drops
later duplicates, preserves order. `seen` accumulates the strings kept. -/
def dedupFirst (seen : List String) : List String → List String
  | [] => []
  | x :: xs => if x ∈ seen then dedupFirst seen xs else x :: dedupFirst (x :: seen) xs

/-- The synthetic `ModuleResult` the catch handler substitutes for a module
whose `checkCompliance` threw a non-nullish value with message `msg`. -/
def syntheticErrorResult (moduleName msg : String) : ModuleResult :=
  { compliant := false,
    violations := [{ type := "MODULE_ERROR",
                     message := "Compliance module " ++ moduleName ++ " failed: " ++ msg,
                     severity := "HIGH" }],
    recommendations := [] }

/-- The initial `results` object of `checkCompliance`. -/
def initReport : Report :=
  { overallCompliant := true,
    moduleResults := [],
    summary := { totalViolations := 0, criticalViolations := 0, highViolations := 0,
                 recommendations := [] } }

/-- One iteration of the `for (const moduleName of this.enabledModules)` loop:
skip unregistered names; on a normal result update `moduleResults`,
`overallCompliant` and the summary counters; on a thrown value substitute the
synthetic `MODULE_ERROR` result (reading `.message` of a nullish value raises
a `TypeError` out of the loop). -/
def stepModule (e : Engine) (content context : String) (results : Report)
    (moduleName : String) : Except JsError Report :=
  match lookupEntry moduleName e.complianceModules with
  | none => .ok results
  | some m =>
    match m.impl.checkCompliance content context with
    | .ok moduleResult =>
      .ok { overallCompliant := results.overallCompliant && moduleResult.compliant,
            moduleResults := objInsert moduleName moduleResult results.moduleResults,
            summary :=
              { totalViolations := results.summary.totalViolations + moduleResult.violations.length,
                criticalViolations := results.summary.criticalViolations +
                  (moduleResult.violations.filter (fun v => v.severity == "CRITICAL")).length,
                highViolations := results.summary.highViolations +
                  (moduleResult.violations.filter (fun v => v.severity == "HIGH")).length,
                recommendations := results.summary.recommendations ++ moduleResult.recommendations } }
    | .error t =>
      match t with
      | .nullish => .error .typeError
      | .val msg =>
        .ok { results with
              overallCompliant := false,
              moduleResults := objInsert moduleName (syntheticErrorResult moduleName msg)
                results.moduleResults }

/-- The module loop of `checkCompliance`. -/
def runModules (e : Engine) (content context : String) (results : Report) :
    List String → Except JsError Report
  | [] => .ok results
  | moduleName :: rest =>
    match stepModule e content context results moduleName with
    | .ok results1 => runModules e content context results1 rest
    | .error err => .error err

/-- `ComplianceEngine.checkCompliance(content, context)`: run the loop over
the enabled modules, then deduplicate `summary.recommendations`. -/
def checkCompliance (e : Engine) (content context : String) : Except JsError Report :=
  match runModules e content context initReport e.enabledModules with
  | .error err => .error err
  | .ok results =>
    .ok { results with
          summary := { results.summary with
                       recommendations := dedupFirst [] results.summary.recommendations } }

/-- The loop of `ComplianceEngine.getRequirements()`: no try/catch — a
module whose `getRequirements()` throws aborts the loop with that value. -/
def getReqLoop (e : Engine) (acc : List (String × String)) :
    List String → Except JsThrown (List (String × String))
  | [] => .ok acc
  | moduleName :: rest =>
    match lookupEntry moduleName e.complianceModules with
    | none => getReqLoop e acc rest
    | some m =>
      match m.impl.getRequirements with
      | .ok v => getReqLoop e (objInsert moduleName v acc) rest
      | .error t => .error t

/-- `ComplianceEngine.getRequirements()`. -/
def getRequirements (e : Engine) : Except JsThrown (List (String × String)) :=
  getReqLoop e [] e.enabledModules

/-- `ComplianceEngine.setModuleEnabled(moduleName, enabled)`. -/
def setModuleEnabled (e : Engine) (moduleName : String) (enabled : Bool) : Engine :=
  if enabled && !(decide (moduleName ∈ e.enabledModules)) then
    { e with enabledModules := e.enabledModules ++ [moduleName] }
  else if !enabled then
    { e with enabledModules := e.enabledModules.filter (fun m => m ≠ moduleName) }
  else
    e

/-- `ComplianceEngine.configureModule(moduleName, config)`: if the name is
registered, replace the entry by a fresh instance built by the same
constructor from `config`; otherwise do nothing. -/
def configureModule (e : Engine) (moduleName config : String) : Engine :=
  match lookupEntry moduleName e.complianceModules with
  | none => e
  | some m =>
    let fresh : PolicyModule := PolicyModule.mk m.variant (m.variant config)
    { e with complianceModules := objInsert moduleName fresh e.complianceModules }

/-- What one loop iteration of `checkCompliance` records for a name:
`normal mr` for a module that returned `mr`, `failed msg` for a module that
threw a non-nullish value with message `msg`. -/
inductive Outcome where
  | normal (moduleResult : ModuleResult)
  | failed (msg : String)
  deriving Repr, DecidableEq

/-- The outcome `checkCompliance` observes for `moduleName`: `none` when the
name is unregistered (skipped) or when the module throws a nullish value
(the round aborts before recording anything). -/
def expectedOutcome (e : Engine) (content context moduleName : String) : Option Outcome :=
  match lookupEntry moduleName e.complianceModules with
  | none => none
  | some m =>
    match m.impl.checkCompliance content context with
    | .ok mr => some (.normal mr)
    | .error .nullish => none
    | .error (.val msg) => some (.failed msg)

/-- The `ModuleResult` stored in `moduleResults` for an outcome. -/
def Outcome.result (moduleName : String) : Outcome → ModuleResult
  | .normal mr => mr
  | .failed msg => syntheticErrorResult moduleName msg

/-- `(expectedOutcome …).map (Outcome.result …)`: the entry value recorded
for a name, when any. -/
def recordedResult (e : Engine) (content context moduleName : String) : Option ModuleResult :=
  (expectedOutcome e content context moduleName).map (Outcome.result moduleName)

/-- Pure replay of one loop iteration on the `results` object. -/
def applyOutcome (results : Report) (moduleName : String) : Outcome → Report
  | .normal moduleResult =>
    { overallCompliant := results.overallCompliant && moduleResult.compliant,
      moduleResults := objInsert moduleName moduleResult results.moduleResults,
      summary :=
        { totalViolations := results.summary.totalViolations + moduleResult.violations.length,
          criticalViolations := results.summary.criticalViolations +
            (moduleResult.violations.filter (fun v => v.severity == "CRITICAL")).length,
          highViolations := results.summary.highViolations +
            (moduleResult.violations.filter (fun v => v.severity == "HIGH")).length,
          recommendations := results.summary.recommendations ++ moduleResult.recommendations } }
  | .failed msg =>
    { results with
      overallCompliant := false,
      moduleResults := objInsert moduleName (syntheticErrorResult moduleName msg)
        results.moduleResults }

/-- Pure replay of the whole module loop (defined only to state and prove
properties; it agrees with `runModules` whenever no module throws nullish). -/
def runPure (e : Engine) (content context : String) (results : Report) :
    List String → Report
  | [] => results
  | moduleName :: rest =>
    runPure e content context
      (match expectedOutcome e content context moduleName with
       | none => results
       | some o => applyOutcome results moduleName o) rest

/-- Pure replay of how the loop builds `moduleResults` from an accumulator. -/
def mrAfter (e : Engine) (content context : String)
    (acc : List (String × ModuleResult)) : List String → List (String × ModuleResult)
  | [] => acc
  | moduleName :: rest =>
    mrAfter e content context
      (match expectedOutcome e content context moduleName with
       | none => acc
       | some o => objInsert moduleName (Outcome.result moduleName o) acc) rest

/-- `true` unless `moduleName` is registered and its module throws a nullish
value on this input (the only way an iteration can abort the round). -/
def nullishFreeB (e : Engine) (content context moduleName : String) : Bool :=
  match lookupEntry moduleName e.complianceModules with
  | none => true
  | some m =>
    match m.impl.checkCompliance content context with
    | .error .nullish => false
    | _ => true

/-- The `compliant` flag one iteration contributes (`true` for skipped names). -/
def compliantOf (e : Engine) (content context moduleName : String) : Bool :=
  match expectedOutcome e content context moduleName with
  | none => true
  | some o => (Outcome.result moduleName o).compliant

/-- How many violations one iteration adds to `summary.totalViolations`:
the violation count of a normal result, `0` otherwise (the catch handler
never updates the summary). -/
def violCountOf (e : Engine) (content context moduleName : String) : Nat :=
  match expectedOutcome e content context moduleName with
  | some (.normal mr) => mr.violations.length
  | _ => 0

/-- Sum of `violCountOf` over a list of names, in order. -/
def violSum (e : Engine) (content context : String) : List String → Nat
  | [] => 0
  | moduleName :: rest =>
    violCountOf e content context moduleName + violSum e content context rest

/-- The sum of `violations.length` over the normally-returned results of the
enabled modules, in enabled-list order. -/
def normalViolationTotal (e : Engine) (content context : String) : Nat :=
  violSum e content context e.enabledModules

/-- The recommendations one iteration pushes (none from the catch handler). -/
def recsOf (e : Engine) (content context moduleName : String) : List String :=
  match expectedOutcome e content context moduleName with
  | some (.normal mr) => mr.recommendations
  | _ => []

/-- Concatenation of `recsOf` over a list of names, in order. -/
def recsOfNames (e : Engine) (content context : String) : List String → List String
  | [] => []
  | moduleName :: rest =>
    recsOf e content context moduleName ++ recsOfNames e content context rest

/-- The raw recommendation stream of a round: modules in enabled-list order,
each module's recommendations in the order the module produced them. -/
def rawRecommendations (e : Engine) (content context : String) : List String :=
  recsOfNames e content context e.enabledModules

/-- Index of the first occurrence of `x` (length of the list if absent). -/
def firstIdx (x : String) : List String → Nat
  | [] => 0
  | y :: ys => if y = x then 0 else firstIdx x ys + 1

/-- Sum of `violations.length` over the entries of a `moduleResults` object
(the quantity the spec asserts `summary.totalViolations` equals). -/
def entriesViolationSum : List (String × ModuleResult) → Nat
  | [] => 0
  | (_, mr) :: rest => mr.violations.length + entriesViolationSum rest

/-- Modelled from the spec: the `violationsBySeverity` per-severity count the
spec ascribes to the summary (`mapping Severity → int`), computed over the
entries of `moduleResults`. The source has no such mapping; this definition
exists only to compare the spec's words with the code's summary. -/
def specViolationsBySeverity (sev : String) : List (String × ModuleResult) → Nat
  | [] => 0
  | (_, mr) :: rest =>
    (mr.violations.filter (fun v => v.severity == sev)).length +
      specViolationsBySeverity sev rest

/-- The engine with every occurrence of `moduleName` removed from the
enabled list (registry unchanged). -/
def dropEnabled (e : Engine) (moduleName : String) : Engine :=
  { e with enabledModules := e.enabledModules.filter (fun m => m ≠ moduleName) }

/-- `true` iff the `Except` value is `.ok`. -/
def exceptIsOk {ε α : Type} : Except ε α → Bool
  | .ok _ => true
  | .error _ => false

/-- A module instance that always returns `mr` and describes itself as `req`. -/
def okImpl (mr : ModuleResult) (req : String) : ModuleImpl :=
  { checkCompliance := fun _ _ => .ok mr, getRequirements := .ok req }

/-- A module whose every instance returns `mr` / `req`. -/
def okModule (mr : ModuleResult) (req : String) : PolicyModule :=
  { variant := fun _ => okImpl mr req, impl := okImpl mr req }

/-- A module instance whose evaluation always throws `t`. -/
def throwImpl (t : JsThrown) : ModuleImpl :=
  { checkCompliance := fun _ _ => .error t, getRequirements := .ok "" }

/-- A module whose every instance throws `t` from evaluation. -/
def throwModule (t : JsThrown) : PolicyModule :=
  { variant := fun _ => throwImpl t, impl := throwImpl t }

/-- A module whose instances evaluate normally but whose `getRequirements`
throws `t`. -/
def reqThrowModule (t : JsThrown) : PolicyModule :=
  { variant := fun _ => { checkCompliance := fun _ _ => .ok ⟨true, [], []⟩,
                          getRequirements := .error t },
    impl := { checkCompliance := fun _ _ => .ok ⟨true, [], []⟩,
              getRequirements := .error t } }

/-- A compliant result with no violations and no recommendations. -/
def cleanResult : ModuleResult := { compliant := true, violations := [], recommendations := [] }

/-- A variant whose instances echo their configuration string. -/
def cfgVariant : String → ModuleImpl :=
  fun config => { checkCompliance := fun _ _ => .ok ⟨true, [], [config]⟩,
                  getRequirements := .ok config }

/-- An instance of `cfgVariant` built from the configuration `"init"`. -/
def cfgModule : PolicyModule := { variant := cfgVariant, impl := cfgVariant "init" }

/-- An engine with one enabled module whose evaluation throws an Error-like
value with message `boom`. -/
def eC1 : Engine := ⟨[("bad", throwModule (.val "boom"))], ["bad"], true⟩

/-- The report `checkCompliance eC1` produces: one synthetic entry with one
violation, yet `totalViolations = 0`. -/
def rC1x : Report := ⟨false, [("bad", syntheticErrorResult "bad" "boom")], ⟨0, 0, 0, []⟩⟩

/-- A compliant result carrying one HIGH violation and one recommendation. -/
def resultW : ModuleResult := ⟨true, [⟨"T", "m", "HIGH"⟩], ["rec1"]⟩

/-- An engine with one normal module returning `resultW`. -/
def eC1w : Engine := ⟨[("a", okModule resultW "ra")], ["a"], true⟩

/-- The report `checkCompliance eC1w` produces. -/
def rC1w : Report := ⟨true, [("a", resultW)], ⟨1, 0, 1, ["rec1"]⟩⟩

/-- An engine with one enabled module whose `getRequirements` throws. -/
def eC2 : Engine := ⟨[("a", reqThrowModule (.val "boom"))], ["a"], true⟩

/-- An engine where one module throws the bare value `null` and a second
module evaluates normally. -/
def eC3x : Engine :=
  ⟨[("bad", throwModule .nullish), ("good", okModule cleanResult "rg")], ["bad", "good"], true⟩

/-- A compliant result with one recommendation. -/
def goodResult : ModuleResult := ⟨true, [], ["g"]⟩

/-- An engine where one module throws an Error-like value and a second
module evaluates normally. -/
def eC3w : Engine :=
  ⟨[("bad", throwModule (.val "boom")), ("good", okModule goodResult "rg")], ["bad", "good"], true⟩

/-- An engine with one enabled module that throws the bare value `null`. -/
def eC4 : Engine := ⟨[("bad", throwModule .nullish)], ["bad"], true⟩

/-- An engine with a normal module and a throwing module. -/
def eC5w : Engine := ⟨[("a", okModule cleanResult "r"), ("bad", throwModule (.val "e"))], ["a", "bad"], true⟩

/-- The report `checkCompliance eC5w` produces. -/
def rC5w : Report := ⟨false, [("a", cleanResult), ("bad", syntheticErrorResult "bad" "e")], ⟨0, 0, 0, []⟩⟩

/-- A non-compliant result with one CRITICAL violation (module B of the
spec's concrete scenario). -/
def resB6 : ModuleResult := ⟨false, [⟨"V", "m", "CRITICAL"⟩], []⟩

/-- The two-module engine of the spec's concrete scenario. -/
def eC6 : Engine := ⟨[("A", okModule cleanResult "rA"), ("B", okModule resB6 "rB")], ["A", "B"], true⟩

/-- The report `checkCompliance eC6` produces. -/
def rC6 : Report := ⟨false, [("A", cleanResult), ("B", resB6)], ⟨1, 1, 0, []⟩⟩

/-- A result with a single LOW violation. -/
def lowResult : ModuleResult := ⟨true, [⟨"V", "m", "LOW"⟩], []⟩

/-- A result with a single MEDIUM violation. -/
def medResult : ModuleResult := ⟨true, [⟨"V", "m", "MEDIUM"⟩], []⟩

/-- One-module engine producing a LOW violation. -/
def eC6low : Engine := ⟨[("A", okModule lowResult "r")], ["A"], true⟩

/-- One-module engine producing a MEDIUM violation. -/
def eC6med : Engine := ⟨[("A", okModule medResult "r")], ["A"], true⟩

/-- The report `checkCompliance eC6low` produces. -/
def rC6low : Report := ⟨true, [("A", lowResult)], ⟨1, 0, 0, []⟩⟩

/-- The report `checkCompliance eC6med` produces. -/
def rC6med : Report := ⟨true, [("A", medResult)], ⟨1, 0, 0, []⟩⟩

/-- A result whose recommendations contain an internal duplicate. -/
def recsResA : ModuleResult := ⟨true, [], ["x", "y", "x"]⟩

/-- A result whose recommendations overlap with `recsResA`. -/
def recsResB : ModuleResult := ⟨true, [], ["y", "z"]⟩

/-- A two-module engine with overlapping recommendation lists. -/
def eC7w : Engine := ⟨[("a", okModule recsResA "ra"), ("b", okModule recsResB "rb")], ["a", "b"], true⟩

/-- The report `checkCompliance eC7w` produces (deduplicated recommendations). -/
def rC7w : Report := ⟨true, [("a", recsResA), ("b", recsResB)], ⟨0, 0, 0, ["x", "y", "z"]⟩⟩

/-- An engine holding one configurable-variant module. -/
def eC8w : Engine := ⟨[("a", cfgModule)], ["a"], true⟩

/-- An engine with an empty registry and an empty enabled list. -/
def eC9 : Engine := ⟨[], [], true⟩

/-- An engine whose enabled list contains a name with no registry entry. -/
def eC10w : Engine := ⟨[("a", okModule cleanResult "req")], ["a", "ghost"], true⟩

theorem lookupEntry_objInsert_self {α : Type} (k : String) (v : α) (l : List (String × α)) :
    lookupEntry k (objInsert k v l) = some v := by
  induction l with
  | nil => simp [objInsert, lookupEntry]
  | cons p rest ih =>
    obtain ⟨k1, v1⟩ := p
    by_cases h : k1 = k
    · subst h; simp [objInsert, lookupEntry]
    · simp [objInsert, lookupEntry, h, ih]

theorem lookupEntry_objInsert_ne {α : Type} (k j : String) (v : α) (l : List (String × α))
    (h : j ≠ k) : lookupEntry j (objInsert k v l) = lookupEntry j l := by
  have hkj : ¬(k = j) := fun hh => h hh.symm
  induction l with
  | nil => simp [objInsert, lookupEntry, hkj]
  | cons p rest ih =>
    obtain ⟨k1, v1⟩ := p
    by_cases h1 : k1 = k
    · subst h1
      simp [objInsert, lookupEntry, hkj]
    · simp [objInsert, lookupEntry, h1, ih]

theorem mem_objInsert {α : Type} (k : String) (v : α) (l : List (String × α))
    (p : String × α) (hp : p ∈ objInsert k v l) : p = (k, v) ∨ p ∈ l := by
  induction l with
  | nil => simpa [objInsert] using hp
  | cons q rest ih =>
    obtain ⟨k1, v1⟩ := q
    by_cases h : k1 = k
    · subst h
      simp only [objInsert, if_pos rfl, if_true, eq_self_iff_true, List.mem_cons] at hp
      rcases hp with h1 | h1
      · exact Or.inl h1
      · exact Or.inr (List.mem_cons_of_mem _ h1)
    · simp only [objInsert, if_neg h, List.mem_cons] at hp
      rcases hp with h1 | h1
      · exact Or.inr (by simp [h1])
      · rcases ih h1 with h2 | h2
        · exact Or.inl h2
        · exact Or.inr (List.mem_cons_of_mem _ h2)

theorem objInsert_all {α : Type} (f : String → Option α) (q : String × α → Bool)
    (k : String) (v : α) (l : List (String × α))
    (hagree : ∀ p ∈ l, f p.1 = some p.2) (hk : f k = some v) :
    (objInsert k v l).all q = (l.all q && q (k, v)) := by
  induction l with
  | nil => simp [objInsert]
  | cons p rest ih =>
    obtain ⟨k1, v1⟩ := p
    by_cases h : k1 = k
    · subst h
      have hv : v1 = v := by
        have h1 : f k1 = some v1 := hagree (k1, v1) (by simp)
        exact Option.some.inj (h1.symm.trans hk)
      subst hv
      have hins : objInsert k1 v1 ((k1, v1) :: rest) = (k1, v1) :: rest := by
        simp [objInsert]
      rw [hins, List.all_cons]
      cases hq : q (k1, v1) <;> cases ha : rest.all q <;> simp [hq, ha]
    · have hrest : ∀ p ∈ rest, f p.1 = some p.2 :=
        fun p hp => hagree p (List.mem_cons_of_mem _ hp)
      simp only [objInsert, if_neg h, List.all_cons, ih hrest]
      rw [Bool.and_assoc]

theorem mem_dedupFirst (l : List String) : ∀ (seen : List String) (x : String),
    x ∈ dedupFirst seen l ↔ (x ∈ l ∧ x ∉ seen) := by
  induction l with
  | nil => intro seen x; simp [dedupFirst]
  | cons y ys ih =>
    intro seen x
    by_cases hy : y ∈ seen
    · rw [dedupFirst, if_pos hy, ih]
      constructor
      · rintro ⟨h1, h2⟩; exact ⟨List.mem_cons_of_mem _ h1, h2⟩
      · rintro ⟨h1, h2⟩
        rcases List.mem_cons.mp h1 with h1 | h1
        · exact absurd (h1 ▸ hy) h2
        · exact ⟨h1, h2⟩
    · rw [dedupFirst, if_neg hy]
      constructor
      · intro hmem
        rcases List.mem_cons.mp hmem with h1 | h1
        · exact ⟨by simp [h1], h1 ▸ hy⟩
        · have := (ih (y :: seen) x).mp h1
          exact ⟨List.mem_cons_of_mem _ this.1,
            fun hs => this.2 (List.mem_cons_of_mem _ hs)⟩
      · rintro ⟨h1, h2⟩
        rcases List.mem_cons.mp h1 with h1 | h1
        · exact h1 ▸ List.mem_cons_self _ _
        · by_cases hxy : x = y
          · exact hxy ▸ List.mem_cons_self _ _
          · exact List.mem_cons_of_mem _
              ((ih (y :: seen) x).mpr ⟨h1, by
                intro hs
                rcases List.mem_cons.mp hs with h3 | h3
                · exact hxy h3
                · exact h2 h3⟩)

theorem nodup_dedupFirst (l : List String) : ∀ seen : List String,
    (dedupFirst seen l).Nodup := by
  induction l with
  | nil => intro seen; simp [dedupFirst]
  | cons y ys ih =>
    intro seen
    by_cases hy : y ∈ seen
    · rw [dedupFirst, if_pos hy]; exact ih seen
    · rw [dedupFirst, if_neg hy, List.nodup_cons]
      refine ⟨fun hmem => ?_, ih (y :: seen)⟩
      exact ((mem_dedupFirst ys (y :: seen) y).mp hmem).2 (List.mem_cons_self _ _)

theorem firstIdx_cons_self (x : String) (ys : List String) :
    firstIdx x (x :: ys) = 0 := by simp [firstIdx]

theorem firstIdx_cons_ne (x y : String) (ys : List String) (h : y ≠ x) :
    firstIdx x (y :: ys) = firstIdx x ys + 1 := by simp [firstIdx, h]

theorem pairwise_firstIdx_dedupFirst (l : List String) : ∀ seen : List String,
    (dedupFirst seen l).Pairwise (fun a b => firstIdx a l < firstIdx b l) := by
  induction l with
  | nil => intro seen; simp [dedupFirst]
  | cons y ys ih =>
    intro seen
    by_cases hy : y ∈ seen
    · rw [dedupFirst, if_pos hy]
      refine (ih seen).imp_of_mem ?_
      intro a b ha hb hab
      have ha1 := (mem_dedupFirst ys seen a).mp ha
      have hb1 := (mem_dedupFirst ys seen b).mp hb
      have hay : y ≠ a := fun h => ha1.2 (h ▸ hy)
      have hby : y ≠ b := fun h => hb1.2 (h ▸ hy)
      rw [firstIdx_cons_ne a y ys hay, firstIdx_cons_ne b y ys hby]
      omega
    · rw [dedupFirst, if_neg hy, List.pairwise_cons]
      constructor
      · intro b hb
        have hb1 := (mem_dedupFirst ys (y :: seen) b).mp hb
        have hby : y ≠ b := fun h => hb1.2 (by simp [h.symm])
        rw [firstIdx_cons_self, firstIdx_cons_ne b y ys hby]
        omega
      · refine (ih (y :: seen)).imp_of_mem ?_
        intro a b ha hb hab
        have ha1 := (mem_dedupFirst ys (y :: seen) a).mp ha
        have hb1 := (mem_dedupFirst ys (y :: seen) b).mp hb
        have hay : y ≠ a := fun h => ha1.2 (by simp [h.symm])
        have hby : y ≠ b := fun h => hb1.2 (by simp [h.symm])
        rw [firstIdx_cons_ne a y ys hay, firstIdx_cons_ne b y ys hby]
        omega

theorem dedupFirst_of_nodup (l : List String) : ∀ seen : List String,
    (∀ x ∈ seen, x ∉ l) → l.Nodup → dedupFirst seen l = l := by
  induction l with
  | nil => intro seen _ _; rfl
  | cons y ys ih =>
    intro seen hseen hnd
    have hy : y ∉ seen := fun h => hseen y h (List.mem_cons_self _ _)
    rw [List.nodup_cons] at hnd
    rw [dedupFirst, if_neg hy]
    refine congrArg (y :: ·) (ih (y :: seen) ?_ hnd.2)
    intro x hx
    rcases List.mem_cons.mp hx with h | h
    · exact h ▸ hnd.1
    · exact fun hmem => hseen x h (List.mem_cons_of_mem _ hmem)

theorem runModules_eq_runPure (e : Engine) (content context : String) (names : List String) :
    ∀ results : Report, (∀ n ∈ names, nullishFreeB e content context n = true) →
    runModules e content context results names = .ok (runPure e content context results names) := by
  induction names with
  | nil => intro results _; rfl
  | cons n rest ih =>
    intro results h
    have hn : nullishFreeB e content context n = true := h n (List.mem_cons_self _ _)
    have hrest : ∀ j ∈ rest, nullishFreeB e content context j = true :=
      fun j hj => h j (List.mem_cons_of_mem _ hj)
    rcases hL : lookupEntry n e.complianceModules with _ | m
    · rw [runPure]
      simp only [runModules, stepModule, hL, expectedOutcome]
      exact ih results hrest
    · rcases hE : m.impl.checkCompliance content context with t | mr
      · rcases t with _ | msg
        · exfalso
          simp only [nullishFreeB, hL, hE] at hn
          exact Bool.false_ne_true hn
        · rw [runPure]
          simp only [runModules, stepModule, hL, hE, expectedOutcome, applyOutcome]
          exact ih _ hrest
      · rw [runPure]
        simp only [runModules, stepModule, hL, hE, expectedOutcome, applyOutcome]
        exact ih _ hrest

theorem nullishFree_of_runModules_ok (e : Engine) (content context : String)
    (names : List String) : ∀ (results res1 : Report),
    runModules e content context results names = .ok res1 →
    ∀ n ∈ names, nullishFreeB e content context n = true := by
  induction names with
  | nil => intro _ _ _ n hn; exact absurd hn (List.not_mem_nil n)
  | cons j rest ih =>
    intro results res1 hrun n hn
    rcases hS : stepModule e content context results j with err | results2
    · simp only [runModules, hS] at hrun
      exact Except.noConfusion hrun
    · simp only [runModules, hS] at hrun
      rcases List.mem_cons.mp hn with h1 | h1
      · subst h1
        rcases hL : lookupEntry n e.complianceModules with _ | m
        · simp [nullishFreeB, hL]
        · rcases hE : m.impl.checkCompliance content context with t | mr
          · rcases t with _ | msg
            · exfalso
              simp only [stepModule, hL, hE] at hS
              exact Except.noConfusion hS
            · simp [nullishFreeB, hL, hE]
          · simp [nullishFreeB, hL, hE]
      · exact ih results2 res1 hrun n h1

theorem runPure_overall (e : Engine) (content context : String) (names : List String) :
    ∀ results : Report, (runPure e content context results names).overallCompliant =
      (results.overallCompliant && names.all (fun n => compliantOf e content context n)) := by
  induction names with
  | nil => intro results; simp [runPure]
  | cons n rest ih =>
    intro results
    rcases hE : expectedOutcome e content context n with _ | o
    · rw [runPure]
      simp only [hE, List.all_cons, ih, compliantOf]
      simp
    · rcases o with mr | msg
      · rw [runPure]
        simp only [hE, List.all_cons, ih, applyOutcome, compliantOf]
        simp [Outcome.result, Bool.and_assoc]
      · rw [runPure]
        simp only [hE, List.all_cons, ih, applyOutcome, compliantOf]
        simp [Outcome.result, syntheticErrorResult]

theorem runPure_moduleResults (e : Engine) (content context : String) (names : List String) :
    ∀ results : Report, (runPure e content context results names).moduleResults =
      mrAfter e content context results.moduleResults names := by
  induction names with
  | nil => intro results; rfl
  | cons n rest ih =>
    intro results
    rcases hE : expectedOutcome e content context n with _ | o
    · rw [runPure, mrAfter]
      simp only [hE, ih]
    · rcases o with mr | msg
      · rw [runPure, mrAfter]
        simp only [hE, ih, applyOutcome, Outcome.result]
      · rw [runPure, mrAfter]
        simp only [hE, ih, applyOutcome, Outcome.result]

theorem runPure_total (e : Engine) (content context : String) (names : List String) :
    ∀ results : Report, (runPure e content context results names).summary.totalViolations =
      results.summary.totalViolations + violSum e content context names := by
  induction names with
  | nil => intro results; simp [runPure, violSum]
  | cons n rest ih =>
    intro results
    rcases hE : expectedOutcome e content context n with _ | o
    · rw [runPure, violSum]
      simp only [hE, ih, violCountOf]
      omega
    · rcases o with mr | msg
      · rw [runPure, violSum]
        simp only [hE, ih, applyOutcome, violCountOf]
        omega
      · rw [runPure, violSum]
        simp only [hE, ih, applyOutcome, violCountOf]
        omega

theorem runPure_recs (e : Engine) (content context : String) (names : List String) :
    ∀ results : Report, (runPure e content context results names).summary.recommendations =
      results.summary.recommendations ++ recsOfNames e content context names := by
  induction names with
  | nil => intro results; simp [runPure, recsOfNames]
  | cons n rest ih =>
    intro results
    rcases hE : expectedOutcome e content context n with _ | o
    · rw [runPure, recsOfNames]
      simp only [hE, ih, recsOf]
      simp
    · rcases o with mr | msg
      · rw [runPure, recsOfNames]
        simp only [hE, ih, applyOutcome, recsOf]
        simp
      · rw [runPure, recsOfNames]
        simp only [hE, ih, applyOutcome, recsOf]
        simp

theorem mrAfter_lookup_stable (e : Engine) (content context : String) (names : List String) :
    ∀ (acc : List (String × ModuleResult)) (n : String) (v : ModuleResult),
    recordedResult e content context n = some v → lookupEntry n acc = some v →
    lookupEntry n (mrAfter e content context acc names) = some v := by
  induction names with
  | nil => intro acc n v _ hacc; exact hacc
  | cons j rest ih =>
    intro acc n v hv hacc
    rcases hE : expectedOutcome e content context j with _ | o
    · rw [mrAfter]
      simp only [hE]
      exact ih acc n v hv hacc
    · rw [mrAfter]
      simp only [hE]
      by_cases hjn : j = n
      · subst hjn
        have hres : Outcome.result j o = v := by
          rw [recordedResult, hE] at hv
          exact Option.some.inj hv
        have hx : lookupEntry j (objInsert j (Outcome.result j o) acc) = some v := by
          rw [lookupEntry_objInsert_self, hres]
        exact ih _ j v hv hx
      · refine ih _ n v hv ?_
        rw [lookupEntry_objInsert_ne j n (Outcome.result j o) acc (fun h2 => hjn h2.symm)]
        exact hacc

theorem mrAfter_lookup_mem (e : Engine) (content context : String) (names : List String) :
    ∀ (acc : List (String × ModuleResult)) (n : String) (o : Outcome), n ∈ names →
    expectedOutcome e content context n = some o →
    lookupEntry n (mrAfter e content context acc names) = some (Outcome.result n o) := by
  induction names with
  | nil => intro _ n _ hn _; exact absurd hn (List.not_mem_nil n)
  | cons j rest ih =>
    intro acc n o hn ho
    rcases List.mem_cons.mp hn with h1 | h1
    · subst h1
      rw [mrAfter]
      simp only [ho]
      refine mrAfter_lookup_stable e content context rest _ n (Outcome.result n o) ?_ ?_
      · rw [recordedResult, ho]
        rfl
      · exact lookupEntry_objInsert_self n (Outcome.result n o) acc
    · rcases hE : expectedOutcome e content context j with _ | o2
      · rw [mrAfter]
        simp only [hE]
        exact ih acc n o h1 ho
      · rw [mrAfter]
        simp only [hE]
        exact ih _ n o h1 ho

theorem mrAfter_lookup_skipped (e : Engine) (content context n : String)
    (hnone : expectedOutcome e content context n = none) (names : List String) :
    ∀ acc : List (String × ModuleResult),
    lookupEntry n (mrAfter e content context acc names) = lookupEntry n acc := by
  induction names with
  | nil => intro acc; rfl
  | cons j rest ih =>
    intro acc
    rcases hE : expectedOutcome e content context j with _ | o
    · rw [mrAfter]
      simp only [hE]
      exact ih acc
    · rw [mrAfter]
      simp only [hE]
      rw [ih _]
      have hjn : n ≠ j := by
        intro h2
        rw [h2, hE] at hnone
        exact Option.noConfusion hnone
      exact lookupEntry_objInsert_ne j n (Outcome.result j o) acc hjn

theorem mrAfter_agree (e : Engine) (content context : String) (names : List String) :
    ∀ acc : List (String × ModuleResult),
    (∀ p ∈ acc, recordedResult e content context p.1 = some p.2) →
    ∀ p ∈ mrAfter e content context acc names, recordedResult e content context p.1 = some p.2 := by
  induction names with
  | nil => intro acc hacc p hp; exact hacc p hp
  | cons j rest ih =>
    intro acc hacc p hp
    rcases hE : expectedOutcome e content context j with _ | o
    · rw [mrAfter] at hp
      simp only [hE] at hp
      exact ih acc hacc p hp
    · rw [mrAfter] at hp
      simp only [hE] at hp
      refine ih _ ?_ p hp
      intro q hq
      rcases mem_objInsert j (Outcome.result j o) acc q hq with h2 | h2
      · rw [h2]
        simp [recordedResult, hE]
      · exact hacc q h2

theorem mrAfter_all (e : Engine) (content context : String) (names : List String) :
    ∀ (acc : List (String × ModuleResult)) (q : String × ModuleResult → Bool),
    (∀ p ∈ acc, recordedResult e content context p.1 = some p.2) →
    (mrAfter e content context acc names).all q =
      (acc.all q && names.all (fun n =>
        match expectedOutcome e content context n with
        | none => true
        | some o => q (n, Outcome.result n o))) := by
  induction names with
  | nil => intro acc q _; simp [mrAfter]
  | cons j rest ih =>
    intro acc q hacc
    rcases hE : expectedOutcome e content context j with _ | o
    · rw [mrAfter]
      simp only [hE, List.all_cons]
      rw [ih acc q hacc]
      simp [hE]
    · rw [mrAfter]
      simp only [hE, List.all_cons]
      have hacc2 : ∀ p ∈ objInsert j (Outcome.result j o) acc,
          recordedResult e content context p.1 = some p.2 := by
        intro p hp
        rcases mem_objInsert j (Outcome.result j o) acc p hp with h2 | h2
        · rw [h2]
          simp [recordedResult, hE]
        · exact hacc p h2
      have hj : recordedResult e content context j = some (Outcome.result j o) := by
        rw [recordedResult, hE]
        rfl
      rw [ih _ q hacc2,
        objInsert_all (fun k => recordedResult e content context k) q j (Outcome.result j o) acc hacc hj]
      simp [hE, Bool.and_assoc]

theorem getReqLoop_ok_forall (e : Engine) (names : List String) :
    ∀ (acc reqs : List (String × String)), getReqLoop e acc names = .ok reqs →
    ∀ n ∈ names, ∀ m : PolicyModule, lookupEntry n e.complianceModules = some m →
    exceptIsOk m.impl.getRequirements = true := by
  induction names with
  | nil => intro _ _ _ n hn; exact absurd hn (List.not_mem_nil n)
  | cons j rest ih =>
    intro acc reqs hrun n hn m hm
    rcases hL : lookupEntry j e.complianceModules with _ | mj
    · rw [getReqLoop] at hrun
      simp only [hL] at hrun
      rcases List.mem_cons.mp hn with h1 | h1
      · subst h1
        rw [hL] at hm
        exact Option.noConfusion hm
      · exact ih acc reqs hrun n h1 m hm
    · rcases hR : mj.impl.getRequirements with t | v
      · rw [getReqLoop] at hrun
        simp only [hL, hR] at hrun
        exact Except.noConfusion hrun
      · rw [getReqLoop] at hrun
        simp only [hL, hR] at hrun
        rcases List.mem_cons.mp hn with h1 | h1
        · subst h1
          have hmm : m = mj := by
            rw [hL] at hm
            exact (Option.some.inj hm).symm
          rw [hmm, hR]
          rfl
        · exact ih _ reqs hrun n h1 m hm

theorem getReqLoop_filter_eq (e : Engine) (n : String)
    (hnone : lookupEntry n e.complianceModules = none) (names : List String) :
    ∀ acc : List (String × String),
    getReqLoop e acc (names.filter (fun m => m ≠ n)) = getReqLoop e acc names := by
  induction names with
  | nil => intro acc; rfl
  | cons j rest ih =>
    intro acc
    by_cases hj : j = n
    · subst hj
      rw [List.filter_cons_of_neg (by simp)]
      have hstep : getReqLoop e acc (j :: rest) = getReqLoop e acc rest := by
        rw [getReqLoop]
        simp only [hnone]
      rw [hstep]
      exact ih acc
    · rw [List.filter_cons_of_pos (by simp [hj])]
      rcases hL : lookupEntry j e.complianceModules with _ | m
      · rw [getReqLoop, getReqLoop]
        simp only [hL]
        exact ih acc
      · rcases hR : m.impl.getRequirements with t | v
        · rw [getReqLoop, getReqLoop]
          simp only [hL, hR]
        · rw [getReqLoop, getReqLoop]
          simp only [hL, hR]
          exact ih _

theorem getReqLoop_lookup_pres (e : Engine) (n : String)
    (hnone : lookupEntry n e.complianceModules = none) (names : List String) :
    ∀ (acc reqs : List (String × String)), getReqLoop e acc names = .ok reqs →
    lookupEntry n reqs = lookupEntry n acc := by
  induction names with
  | nil =>
    intro acc reqs hrun
    rw [Except.ok.inj hrun]
  | cons j rest ih =>
    intro acc reqs hrun
    rcases hL : lookupEntry j e.complianceModules with _ | m
    · rw [getReqLoop] at hrun
      simp only [hL] at hrun
      exact ih acc reqs hrun
    · rcases hR : m.impl.getRequirements with t | v
      · rw [getReqLoop] at hrun
        simp only [hL, hR] at hrun
        exact Except.noConfusion hrun
      · rw [getReqLoop] at hrun
        simp only [hL, hR] at hrun
        have hjn : n ≠ j := by
          intro h2
          rw [h2, hL] at hnone
          exact Option.noConfusion hnone
        rw [ih _ reqs hrun]
        exact lookupEntry_objInsert_ne j n v acc hjn

theorem runModules_filter_eq (e : Engine) (content context n : String)
    (hnone : lookupEntry n e.complianceModules = none) (names : List String) :
    ∀ results : Report,
    runModules e content context results (names.filter (fun m => m ≠ n)) =
      runModules e content context results names := by
  induction names with
  | nil => intro results; rfl
  | cons j rest ih =>
    intro results
    by_cases hj : j = n
    · subst hj
      rw [List.filter_cons_of_neg (by simp)]
      have hstep : runModules e content context results (j :: rest) =
          runModules e content context results rest := by
        rw [runModules]
        simp only [stepModule, hnone]
      rw [hstep]
      exact ih results
    · rw [List.filter_cons_of_pos (by simp [hj])]
      rcases hS : stepModule e content context results j with err | results2
      · rw [runModules, runModules]
        simp only [hS]
      · rw [runModules, runModules]
        simp only [hS]
        exact ih results2

theorem runModules_congr_modules (e1 e2 : Engine)
    (hcm : e1.complianceModules = e2.complianceModules) (content context : String)
    (names : List String) : ∀ results : Report,
    runModules e1 content context results names = runModules e2 content context results names := by
  induction names with
  | nil => intro results; rfl
  | cons j rest ih =>
    intro results
    have hstep : stepModule e1 content context results j = stepModule e2 content context results j := by
      rw [stepModule, stepModule, hcm]
    rcases hS : stepModule e2 content context results j with err | results2
    · rw [runModules, runModules, hstep, hS]
    · rw [runModules, runModules, hstep, hS]
      exact ih results2

theorem getReqLoop_congr_modules (e1 e2 : Engine)
    (hcm : e1.complianceModules = e2.complianceModules) (names : List String) :
    ∀ acc : List (String × String), getReqLoop e1 acc names = getReqLoop e2 acc names := by
  induction names with
  | nil => intro acc; rfl
  | cons j rest ih =>
    intro acc
    rw [getReqLoop, getReqLoop, hcm]
    rcases hL : lookupEntry j e2.complianceModules with _ | m
    · simp only [hL]
      exact ih acc
    · rcases hR : m.impl.getRequirements with t | v
      · simp only [hL, hR]
      · simp only [hL, hR]
        exact ih _

theorem checkCompliance_ok_char (e : Engine) (content context : String) (r : Report)
    (h : checkCompliance e content context = .ok r) :
    r.overallCompliant = e.enabledModules.all (fun n => compliantOf e content context n) ∧
    r.moduleResults = mrAfter e content context [] e.enabledModules ∧
    r.summary.totalViolations = normalViolationTotal e content context ∧
    r.summary.recommendations = dedupFirst [] (rawRecommendations e content context) := by
  rcases hrun : runModules e content context initReport e.enabledModules with err | res
  · rw [checkCompliance, hrun] at h
    exact Except.noConfusion h
  · have hfree := nullishFree_of_runModules_ok e content context e.enabledModules initReport res hrun
    have hpure := runModules_eq_runPure e content context e.enabledModules initReport hfree
    rw [hrun] at hpure
    have hres : res = runPure e content context initReport e.enabledModules := Except.ok.inj hpure
    rw [checkCompliance, hrun] at h
    have hr := Except.ok.inj h
    subst hr
    refine ⟨?_, ?_, ?_, ?_⟩
    · show res.overallCompliant = _
      rw [hres, runPure_overall]
      rfl
    · show res.moduleResults = _
      rw [hres, runPure_moduleResults]
      rfl
    · show res.summary.totalViolations = _
      rw [hres, runPure_total]
      simp [initReport, normalViolationTotal]
    · show dedupFirst [] res.summary.recommendations = _
      rw [hres, runPure_recs]
      rfl

theorem all_compliantOf_eq_false (e : Engine) (content context n : String)
    (hn : n ∈ e.enabledModules) (hc : compliantOf e content context n = false) :
    e.enabledModules.all (fun j => compliantOf e content context j) = false := by
  rcases hall : e.enabledModules.all (fun j => compliantOf e content context j) with _ | _
  · rfl
  · exfalso
    have := List.all_eq_true.mp hall n hn
    rw [hc] at this
    exact Bool.false_ne_true this

/-- C5: for every content, context and engine state, the report returned by
`checkCompliance` satisfies `overallCompliant` = the logical AND of the
`compliant` flag of every entry of `moduleResults` (`true` when
`moduleResults` is empty); a module whose evaluation threw is recorded with
a synthetic `compliant = false` result, so it counts as `false` in the AND. -/
theorem c5_overall_eq_all_compliant (e : Engine) (content context : String) (r : Report)
    (h : checkCompliance e content context = .ok r) :
    r.overallCompliant = r.moduleResults.all (fun p => p.2.compliant) := by
  obtain ⟨hov, hmr, _, _⟩ := checkCompliance_ok_char e content context r h
  rw [hov, hmr]
  rw [mrAfter_all e content context e.enabledModules [] (fun p => p.2.compliant)
    (fun p hp => absurd hp (List.not_mem_nil p))]
  rw [List.all_nil, Bool.true_and]
  have hfun : ∀ n : String, compliantOf e content context n =
      (match expectedOutcome e content context n with
       | none => true
       | some o => (fun p : String × ModuleResult => p.2.compliant) (n, Outcome.result n o)) := by
    intro n
    rw [compliantOf]
  exact congrArg (List.all e.enabledModules) (funext hfun)

/-- C5 witness: the theorem applied to the concrete engine `eC5w`, whose
round records one normal result and one synthetic failure result. -/
theorem c5_overall_eq_all_compliant_witness :
    checkCompliance eC5w "c" "x" = .ok rC5w ∧
      rC5w.overallCompliant = rC5w.moduleResults.all (fun p => p.2.compliant) :=
  ⟨rfl, c5_overall_eq_all_compliant eC5w "c" "x" rC5w rfl⟩

/-- C1 counterexample: in `eC1` the only enabled module throws, so its
`moduleResults` entry is a synthetic result holding one `MODULE_ERROR`
violation, but the catch handler never updates the summary:
`summary.totalViolations = 0` while the sum of `violations.length` over the
entries of `moduleResults` is `1`. This refutes the claim that
`summary.totalViolations` equals that sum including synthetic entries. -/
theorem c1_total_cex :
    checkCompliance eC1 "c" "x" = .ok rC1x ∧
      rC1x.summary.totalViolations = 0 ∧
      entriesViolationSum rC1x.moduleResults = 1 ∧
      rC1x.summary.totalViolations ≠ entriesViolationSum rC1x.moduleResults :=
  ⟨rfl, rfl, rfl, by decide⟩

/-- C1 amended: whenever `checkCompliance` returns a report,
`summary.totalViolations` equals the sum of `violations.length` over the
modules whose evaluation returned normally, in enabled-list order; synthetic
`MODULE_ERROR` results substituted for throwing modules contribute their one
violation to `moduleResults` but are not counted in `totalViolations`. -/
theorem c1_total_amended (e : Engine) (content context : String) (r : Report)
    (h : checkCompliance e content context = .ok r) :
    r.summary.totalViolations = normalViolationTotal e content context :=
  (checkCompliance_ok_char e content context r h).2.2.1

/-- C1 amended witness: the theorem applied to the concrete engine `eC1w`. -/
theorem c1_total_amended_witness :
    checkCompliance eC1w "c" "x" = .ok rC1w ∧
      rC1w.summary.totalViolations = normalViolationTotal eC1w "c" "x" :=
  ⟨rfl, c1_total_amended eC1w "c" "x" rC1w rfl⟩

/-- C4 (code bug): `checkCompliance` is not total over arbitrary thrown
values. In `eC4` the only enabled module throws the bare value `null`;
the catch handler evaluates `error.message`, which raises a `TypeError`,
so `checkCompliance` itself rejects instead of returning a report. -/
theorem c4_nullish_throw_bug :
    checkCompliance eC4 "c" "x" = .error JsError.typeError := rfl

/-- C3 counterexample: when the thrown value is the bare value `null`
(`JsThrown.nullish`), the round does not complete: `checkCompliance` on
`eC3x` (a nullish-throwing module alongside a normal module) returns a
`TypeError` instead of a report, so no synthetic `MODULE_ERROR` slot and no
other module's result is delivered, contrary to the claim as stated for
every throwing module. -/
theorem c3_isolation_cex :
    checkCompliance eC3x "c" "x" = .error JsError.typeError := rfl

/-- C3 amended: if an enabled module's evaluation throws a value that is
not `null`/`undefined` (so the handler can read its `.message`, e.g. any
Error object) and every other enabled registered module returns normally,
the round completes: the throwing module's slot holds the synthetic
result — `compliant = false` with exactly one violation of type
`MODULE_ERROR` and severity `HIGH` — `overallCompliant` is `false`, and
every other module's slot holds exactly the result that module returned. -/
theorem c3_isolation_amended (e : Engine) (content context n : String) (m : PolicyModule)
    (msg : String)
    (hn : n ∈ e.enabledModules)
    (hm : lookupEntry n e.complianceModules = some m)
    (hthrow : m.impl.checkCompliance content context = .error (.val msg))
    (hothers : ∀ n2 m2, n2 ∈ e.enabledModules → n2 ≠ n →
      lookupEntry n2 e.complianceModules = some m2 →
      ∃ mr, m2.impl.checkCompliance content context = .ok mr) :
    exceptIsOk (checkCompliance e content context) = true ∧
    (∀ r : Report, checkCompliance e content context = .ok r →
      lookupEntry n r.moduleResults = some (syntheticErrorResult n msg) ∧
      (syntheticErrorResult n msg).compliant = false ∧
      (syntheticErrorResult n msg).violations.map (fun v => (v.type, v.severity)) =
        [("MODULE_ERROR", "HIGH")] ∧
      r.overallCompliant = false ∧
      ∀ n2 m2 mr, n2 ∈ e.enabledModules → lookupEntry n2 e.complianceModules = some m2 →
        m2.impl.checkCompliance content context = .ok mr →
        lookupEntry n2 r.moduleResults = some mr) := by
  have hfree : ∀ j ∈ e.enabledModules, nullishFreeB e content context j = true := by
    intro j hj
    rcases hL : lookupEntry j e.complianceModules with _ | mj
    · simp [nullishFreeB, hL]
    · by_cases hjn : j = n
      · subst hjn
        have hmj : mj = m := Option.some.inj (hL.symm.trans hm)
        simp [nullishFreeB, hL, hmj, hthrow]
      · obtain ⟨mr, hmr⟩ := hothers j mj hj hjn hL
        simp [nullishFreeB, hL, hmr]
  have hrun := runModules_eq_runPure e content context e.enabledModules initReport hfree
  constructor
  · rw [checkCompliance, hrun]
    rfl
  · intro r hr
    obtain ⟨hov, hmr2, _, _⟩ := checkCompliance_ok_char e content context r hr
    have hEn : expectedOutcome e content context n = some (.failed msg) := by
      simp only [expectedOutcome, hm, hthrow]
    refine ⟨?_, rfl, rfl, ?_, ?_⟩
    · rw [hmr2]
      exact mrAfter_lookup_mem e content context e.enabledModules [] n (.failed msg) hn hEn
    · rw [hov]
      refine all_compliantOf_eq_false e content context n hn ?_
      simp [compliantOf, hEn, Outcome.result, syntheticErrorResult]
    · intro n2 m2 mr hn2 hm2 hmr
      rw [hmr2]
      have hEn2 : expectedOutcome e content context n2 = some (.normal mr) := by
        simp only [expectedOutcome, hm2, hmr]
      exact mrAfter_lookup_mem e content context e.enabledModules [] n2 (.normal mr) hn2 hEn2

/-- C3 amended witness: the theorem applied to `eC3w`, where module `bad`
throws an Error-like value and module `good` returns normally. -/
theorem c3_isolation_amended_witness :
    exceptIsOk (checkCompliance eC3w "c" "x") = true :=
  (c3_isolation_amended eC3w "c" "x" "bad" (throwModule (.val "boom")) "boom"
    (by decide) rfl rfl
    (by
      intro n2 m2 hn2 hne hl2
      rcases List.mem_cons.mp hn2 with h1 | h1
      · exact absurd h1 hne
      · have h2 : n2 = "good" := by simpa using h1
        subst h2
        have h3 : lookupEntry "good" eC3w.complianceModules = some (okModule goodResult "rg") := rfl
        rw [h3] at hl2
        rw [← Option.some.inj hl2]
        exact ⟨goodResult, rfl⟩)).1

/-- C7: whenever `checkCompliance` returns a report, its
`summary.recommendations` list has no duplicates, contains exactly the
strings of the raw recommendation stream (modules in enabled-list order,
each module's recommendations in production order), lists them ordered by
first occurrence in that stream, and re-deduplicating it is the identity
(so recomputing the aggregation on the same inputs yields an identical
summary — the embedding is a pure function, hence deterministic). -/
theorem c7_dedup_recommendations (e : Engine) (content context : String) (r : Report)
    (h : checkCompliance e content context = .ok r) :
    r.summary.recommendations.Nodup ∧
    (∀ s : String, s ∈ r.summary.recommendations ↔ s ∈ rawRecommendations e content context) ∧
    r.summary.recommendations.Pairwise (fun a b =>
      firstIdx a (rawRecommendations e content context) <
        firstIdx b (rawRecommendations e content context)) ∧
    dedupFirst [] r.summary.recommendations = r.summary.recommendations := by
  obtain ⟨_, _, _, hrecs⟩ := checkCompliance_ok_char e content context r h
  rw [hrecs]
  refine ⟨nodup_dedupFirst (rawRecommendations e content context) [], ?_,
    pairwise_firstIdx_dedupFirst (rawRecommendations e content context) [], ?_⟩
  · intro s
    rw [mem_dedupFirst]
    simp
  · exact dedupFirst_of_nodup (dedupFirst [] (rawRecommendations e content context)) []
      (fun x hx => absurd hx (List.not_mem_nil x))
      (nodup_dedupFirst (rawRecommendations e content context) [])

/-- C7 witness: the theorem applied to `eC7w`, whose modules produce the
overlapping streams `[x, y, x]` and `[y, z]`. -/
theorem c7_dedup_recommendations_witness :
    checkCompliance eC7w "c" "x" = .ok rC7w ∧ rC7w.summary.recommendations.Nodup :=
  ⟨rfl, (c7_dedup_recommendations eC7w "c" "x" rC7w rfl).1⟩

/-- C2 counterexample: in `eC2` the only enabled module's `getRequirements`
throws; the orchestrator's `getRequirements` has no try/catch, so the thrown
value propagates to the caller instead of a mapping with an error
placeholder. -/
theorem c2_getRequirements_cex :
    getRequirements eC2 = Except.error (JsThrown.val "boom") := rfl

/-- C2 amended: a module whose `getRequirements` throws makes the
orchestrator's `getRequirements` fail as a whole — the error is propagated
to the caller, and no mapping (with or without a placeholder) is returned. -/
theorem c2_getRequirements_amended (e : Engine) (n : String) (m : PolicyModule) (t : JsThrown)
    (hn : n ∈ e.enabledModules) (hm : lookupEntry n e.complianceModules = some m)
    (ht : m.impl.getRequirements = .error t) :
    exceptIsOk (getRequirements e) = false := by
  rcases hreq : getRequirements e with t2 | reqs
  · rfl
  · exfalso
    rw [getRequirements] at hreq
    have hok := getReqLoop_ok_forall e e.enabledModules [] reqs hreq n hn m hm
    rw [ht] at hok
    exact Bool.false_ne_true hok

/-- C2 amended witness: the theorem applied to the concrete engine `eC2`. -/
theorem c2_getRequirements_amended_witness :
    exceptIsOk (getRequirements eC2) = false :=
  c2_getRequirements_amended eC2 "a" (reqThrowModule (.val "boom")) (.val "boom")
    (by decide) rfl rfl

/-- C10: a name in the enabled list with no registry entry is silently
skipped by both `checkCompliance` and `getRequirements`: each call returns
exactly what it returns with that name removed from the enabled list, and
neither output contains an entry (normal or error-flavoured) for the name. -/
theorem c10_skip_unregistered (e : Engine) (content context n : String)
    (_hn : n ∈ e.enabledModules)
    (hnone : lookupEntry n e.complianceModules = none) :
    checkCompliance e content context = checkCompliance (dropEnabled e n) content context ∧
    getRequirements e = getRequirements (dropEnabled e n) ∧
    (∀ r : Report, checkCompliance e content context = .ok r →
      lookupEntry n r.moduleResults = none) ∧
    (∀ reqs, getRequirements e = .ok reqs → lookupEntry n reqs = none) := by
  have hcm : (dropEnabled e n).complianceModules = e.complianceModules := rfl
  have hen : (dropEnabled e n).enabledModules = e.enabledModules.filter (fun m => m ≠ n) := rfl
  refine ⟨?_, ?_, ?_, ?_⟩
  · rw [checkCompliance, checkCompliance,
      runModules_congr_modules (dropEnabled e n) e hcm content context
        (dropEnabled e n).enabledModules initReport,
      hen, runModules_filter_eq e content context n hnone e.enabledModules initReport]
  · rw [getRequirements, getRequirements,
      getReqLoop_congr_modules (dropEnabled e n) e hcm (dropEnabled e n).enabledModules [],
      hen, getReqLoop_filter_eq e n hnone e.enabledModules []]
  · intro r hr
    obtain ⟨_, hmr, _, _⟩ := checkCompliance_ok_char e content context r hr
    have hEnone : expectedOutcome e content context n = none := by
      simp only [expectedOutcome, hnone]
    rw [hmr, mrAfter_lookup_skipped e content context n hEnone e.enabledModules []]
    rfl
  · intro reqs hreq
    rw [getRequirements] at hreq
    rw [getReqLoop_lookup_pres e n hnone e.enabledModules [] reqs hreq]
    rfl

/-- C10 witness: the theorem applied to `eC10w`, whose enabled list contains
the unregistered name `ghost`. -/
theorem c10_skip_unregistered_witness :
    lookupEntry "ghost" eC10w.complianceModules = none ∧
      checkCompliance eC10w "c" "x" = checkCompliance (dropEnabled eC10w "ghost") "c" "x" :=
  ⟨rfl, (c10_skip_unregistered eC10w "c" "x" "ghost" (by decide) rfl).1⟩

/-- C8 counterexample: `configureModule` on the never-registered name
`ghost` does not fail with an `UnknownModuleError` — it returns normally
and leaves the engine completely unchanged (a silent no-op). -/
theorem c8_configure_cex :
    lookupEntry "ghost" eC8w.complianceModules = none ∧
      configureModule eC8w "ghost" "cfg" = eC8w :=
  ⟨rfl, rfl⟩

/-- C8 amended: for a registered name, `configureModule` replaces exactly
that registry entry by a fresh instance built by the same constructor
(variant) from the given configuration, leaves every other entry and the
enabled list unchanged (so the name's enabled status is preserved); for a
name that was never registered it is a silent no-op rather than an
`UnknownModuleError`. -/
theorem c8_configure_amended (e : Engine) (moduleName config : String) :
    (lookupEntry moduleName e.complianceModules = none →
      configureModule e moduleName config = e) ∧
    (∀ m : PolicyModule, lookupEntry moduleName e.complianceModules = some m →
      lookupEntry moduleName (configureModule e moduleName config).complianceModules =
        some (PolicyModule.mk m.variant (m.variant config)) ∧
      (∀ n2, n2 ≠ moduleName →
        lookupEntry n2 (configureModule e moduleName config).complianceModules =
          lookupEntry n2 e.complianceModules) ∧
      (configureModule e moduleName config).enabledModules = e.enabledModules) := by
  constructor
  · intro hnone
    simp only [configureModule, hnone]
  · intro m hm
    refine ⟨?_, ?_, ?_⟩
    · simp only [configureModule, hm]
      exact lookupEntry_objInsert_self moduleName
        (PolicyModule.mk m.variant (m.variant config)) e.complianceModules
    · intro n2 hn2
      simp only [configureModule, hm]
      exact lookupEntry_objInsert_ne moduleName n2
        (PolicyModule.mk m.variant (m.variant config)) e.complianceModules hn2
    · simp only [configureModule, hm]

/-- C8 amended witness: reconfiguring the registered module `a` of `eC8w`
with a new configuration yields a fresh instance of the same variant and
does not touch the enabled list. -/
theorem c8_configure_amended_witness :
    lookupEntry "a" (configureModule eC8w "a" "new").complianceModules =
      some (PolicyModule.mk cfgVariant (cfgVariant "new")) ∧
    (configureModule eC8w "a" "new").enabledModules = eC8w.enabledModules := by
  have h := (c8_configure_amended eC8w "a" "new").2 cfgModule rfl
  exact ⟨h.1, h.2.2⟩

/-- C9 counterexample: `setModuleEnabled` with an unregistered name and
flag `true` is not a no-op on the engine state — it pushes the unknown name
onto the enabled list, changing the enabled set. -/
theorem c9_setEnabled_cex :
    (setModuleEnabled eC9 "ghost" true).enabledModules = ["ghost"] ∧
    eC9.enabledModules = [] ∧
    setModuleEnabled eC9 "ghost" true ≠ eC9 :=
  ⟨rfl, rfl, fun h => absurd (congrArg Engine.enabledModules h) (by decide)⟩

/-- C9 amended: `setModuleEnabled` is idempotent for every name and flag,
never raises, and never changes the registry; but it toggles membership in
the enabled list regardless of registration, so for an unregistered name it
is not a no-op: enabling adds the unknown name to the enabled list (where
evaluation later ignores it), and disabling removes it. -/
theorem c9_setEnabled_amended (e : Engine) (moduleName : String) (enabled : Bool) :
    setModuleEnabled (setModuleEnabled e moduleName enabled) moduleName enabled =
      setModuleEnabled e moduleName enabled ∧
    (setModuleEnabled e moduleName enabled).complianceModules = e.complianceModules := by
  cases enabled with
  | false =>
    constructor
    · simp [setModuleEnabled, List.filter_filter]
    · simp [setModuleEnabled]
  | true =>
    by_cases hmem : moduleName ∈ e.enabledModules
    · constructor <;> simp [setModuleEnabled, hmem]
    · constructor <;> simp [setModuleEnabled, hmem]

/-- C6 counterexample: the code's summary does not carry a per-severity
mapping covering each severity. Two engines whose only difference is a LOW
versus a MEDIUM violation produce identical summaries, while the
spec-modelled `violationsBySeverity` mapping differs at `LOW` — so no
component of the summary records the per-severity counts for LOW or MEDIUM;
the code only tracks `criticalViolations` and `highViolations`. -/
theorem c6_severity_cex :
    checkCompliance eC6low "c" "x" = .ok rC6low ∧
    checkCompliance eC6med "c" "x" = .ok rC6med ∧
    rC6low.summary = rC6med.summary ∧
    specViolationsBySeverity "LOW" rC6low.moduleResults ≠
      specViolationsBySeverity "LOW" rC6med.moduleResults :=
  ⟨rfl, rfl, rfl, by decide⟩

/-- C6 amended: in the spec's concrete scenario (module A compliant with no
violations, module B non-compliant with one CRITICAL violation) the report
has `overallCompliant = false`, `summary.totalViolations = 1` and records
the CRITICAL count in the `criticalViolations` field (`= 1`, with
`highViolations = 0`); the summary carries only these two per-severity
counters, not a mapping covering every severity. -/
theorem c6_scenario_amended :
    checkCompliance eC6 "c" "x" = .ok rC6 ∧
    rC6.overallCompliant = false ∧
    rC6.summary.totalViolations = 1 ∧
    rC6.summary.criticalViolations = 1 ∧
    rC6.summary.highViolations = 0 ∧
    specViolationsBySeverity "CRITICAL" rC6.moduleResults = 1 :=
  ⟨rfl, rfl, rfl, rfl, rfl, by decide⟩
